import Mathlib

/-!
Verification of the hedge-orchestration engine of `multi_wallet_trader.py`
(aster-multi-wallet-trader).

The Python source is shallowly embedded over `ℚ` (the quantities flowing
through the trader are decimal amounts; Python's `round(x, d)` is modelled
as exact round-half-to-even at `d` decimal digits).  Randomness
(`random.shuffle`, `random.randint`, `random.random`, `random.uniform`) is
modelled by passing the drawn values in as explicit parameters; network
calls (`place_order`, price fetches, HMAC) are modelled as oracle
functions supplied to the embedded code, with their results threaded in
program order.
-/

namespace AsterTrader

/-- Round-half-to-even on rationals: the tie-breaking rule used by
Python's builtin `round`. -/
def roundHalfEven (q : ℚ) : ℤ :=
  if q - ⌊q⌋ < 1/2 then ⌊q⌋
  else if 1/2 < q - ⌊q⌋ then ⌊q⌋ + 1
  else if ⌊q⌋ % 2 = 0 then ⌊q⌋ else ⌊q⌋ + 1

/-- Model of Python's `round(q, d)`: round-half-to-even at `d` decimal
digits. -/
def pyRound (q : ℚ) (d : ℕ) : ℚ := (roundHalfEven (q * 10 ^ d) : ℚ) / 10 ^ d

/-- Model of Python's `int(q)` (truncation toward zero). -/
def pyTrunc (q : ℚ) : ℤ := if 0 ≤ q then ⌊q⌋ else -⌊-q⌋

/-!
## The allocator: `distribute_quantity_in_teams` and `split_wallets_into_teams`

`distribute_quantity_in_teams(total_quantity, team_size, symbol)` from the
source is embedded with the symbol-dependent data (`min_step`, `decimals`,
the configured `minimum_order_size_usdt`) passed as parameters, the result
of the internal `_get_current_price` call passed as an `Option ℚ`, and the
stream of `random.random()` draws passed as `props : ℕ → ℚ`.
-/
/-- `min_quantity` as computed in `distribute_quantity_in_teams`:
`max(min_order_usdt / price, min_step)` plus a one-step buffer, rounded to
the symbol's decimal precision. -/
def minQuantityOf (minOrderUsdt price minStep : ℚ) (d : ℕ) : ℚ :=
  pyRound (max (minOrderUsdt / price) minStep + minStep) d

/-- The effective team size after the shrink step: if the total cannot
cover `min_quantity` for every member, shrink to
`int(total_quantity / min_quantity)`. -/
def effectiveTeamSize (total minQ : ℚ) (teamSize : ℕ) : ℕ :=
  if total < minQ * teamSize then (pyTrunc (total / minQ)).toNat else teamSize

/-- The per-member quantities before rounding: `min_quantity` plus the
remainder distributed proportionally to the normalized random draws. -/
def rawQuantities (total minQ : ℚ) (n : ℕ) (props : ℕ → ℚ) : List ℚ :=
  (List.range n).map fun i =>
    minQ + (total - minQ * n) * (props i / ((List.range n).map props).sum)

/-- `quantities[-1] = round(total_quantity - actual_total, decimals)`:
recompute the last element to force the exact total. -/
def adjustLast (total : ℚ) (d : ℕ) (qs : List ℚ) : List ℚ :=
  qs.dropLast ++ [pyRound (total - qs.dropLast.sum) d]

/-- The final validation loop: raise every entry below `min_quantity` to
`min_quantity`. -/
def raiseMin (minQ : ℚ) (qs : List ℚ) : List ℚ :=
  qs.map fun q => if q < minQ then minQ else q

/-- Embedding of `distribute_quantity_in_teams`.  `priceOpt` is the result
of the internal price fetch (consulted only when `teamSize ≠ 1`), `props`
the stream of `random.random()` draws. -/
def distribute_quantity_in_teams (total : ℚ) (teamSize : ℕ) (minOrderUsdt minStep : ℚ)
    (d : ℕ) (priceOpt : Option ℚ) (props : ℕ → ℚ) : List ℚ :=
  if teamSize = 1 then [total]
  else
    match priceOpt with
    | none => [total]
    | some price =>
      let minQ := minQuantityOf minOrderUsdt price minStep d
      let n := effectiveTeamSize total minQ teamSize
      if total < minQ * teamSize ∧ n ≤ 1 then [total]
      else if total - minQ * n ≤ 0 then
        (List.replicate (n - 1) minQ ++ [total - minQ * ((n : ℚ) - 1)]).map fun q => pyRound q d
      else
        raiseMin minQ (adjustLast total d ((rawQuantities total minQ n props).map fun q => pyRound q d))

/-- Embedding of `split_wallets_into_teams`.  The `random.shuffle` call is
modelled by `shuffle` (its contract: a permutation of its input), the
`random.randint(1, wallet_count - 1)` draw by `longTeamSize`.  The
`ValueError` raised for fewer than 2 wallets is modelled as `none`. -/
def split_wallets_into_teams (shuffle : List String → List String) (longTeamSize : ℕ)
    (wallets : List String) : Option (List String × List String) :=
  if wallets.length < 2 then none
  else some ((shuffle wallets).take longTeamSize, (shuffle wallets).drop longTeamSize)

/-- Embedding of `calculate_position_size`: `base_size` scaled by the drawn
variance factor, divided by the fetched price, rounded to the symbol's
precision; `0` when the price fetch fails. -/
def calculate_position_size (baseSize varianceDraw : ℚ) (d : ℕ) (priceOpt : Option ℚ) : ℚ :=
  match priceOpt with
  | none => 0
  | some price => pyRound (baseSize * (1 + varianceDraw) / price) d

/-!
## The orchestrator: `open_team_hedge_position` and `close_hedge_position`

Order placement is modelled by an oracle `orderOk wallet side quantity`
deciding whether `wallet.place_order(symbol, side, quantity)` returns an
order (the symbol is fixed for one run).  The successive results of
`self._get_current_price(symbol)` are threaded in program order through
`prices : ℕ → Option ℚ`: index 0 is the fetch inside
`calculate_position_size`, index 1 the pre-open eligibility fetch, then
one fetch per `distribute_quantity_in_teams` call whose team size is not
1, and finally the price-for-recording fetch.
-/
/-- One recorded leg of a team hedge position (an entry of
`symbol_positions`, hence of `active_positions[symbol]`). -/
structure Leg where
  wallet : String
  side : String
  quantity : ℚ
  team : String
deriving DecidableEq, Repr

/-- `close_position` computes the opposite side of the original order. -/
def closeSide (side : String) : String := if side = "BUY" then "SELL" else "BUY"

/-- The rollback / close call issued for a recorded leg:
`wallet.close_position(symbol, pos.side, pos.quantity)`. -/
def closeOf (l : Leg) : String × String × ℚ := (l.wallet, closeSide l.side, l.quantity)

/-- The `symbol_positions` entry appended for a successful order. -/
def mkLeg (side team : String) (p : String × ℚ) : Leg :=
  ⟨p.1, side, p.2, team⟩

/-- The order-placement call issued for one team member. -/
def mkAtt (side : String) (p : String × ℚ) : String × String × ℚ :=
  (p.1, side, p.2)

/-- One phase (LONG or SHORT) of the open loop: walk
`zip(team, quantities)`, place an order per member, break at the first
failure.  Returns the successfully opened legs, the order attempts
issued, and the `failed` flag. -/
def runPhase (orderOk : String → String → ℚ → Bool) (side team : String) :
    List (String × ℚ) → List Leg × List (String × String × ℚ) × Bool
  | [] => ([], [], false)
  | p :: rest =>
    if orderOk p.1 side p.2 then
      let r := runPhase orderOk side team rest
      (mkLeg side team p :: r.1, mkAtt side p :: r.2.1, r.2.2)
    else ([], [mkAtt side p], true)

/-- The environment of one `open_team_hedge_position` run: configuration
values, the price-fetch results in program order, the order oracle, and
the values produced by the random source (`random.uniform` variance draw,
`random.shuffle` result, `random.randint` long-team size,
`random.random()` streams for the two distribution calls). -/
structure OpenEnv where
  prices : ℕ → Option ℚ
  orderOk : String → String → ℚ → Bool
  baseSize : ℚ
  varianceDraw : ℚ
  d : ℕ
  minOrderUsdt : ℚ
  minStep : ℚ
  shuffle : List String → List String
  longSize : ℕ
  propsLong : ℕ → ℚ
  propsShort : ℕ → ℚ

/-- The observable outcome of one `open_team_hedge_position` run: the
returned flag, the `place_order` calls issued, the rollback
`close_position` calls issued, and the `active_positions[symbol]` entry
written on success. -/
structure OpenResult where
  success : Bool
  openAttempts : List (String × String × ℚ)
  closeOrders : List (String × String × ℚ)
  recorded : Option (List Leg)
deriving DecidableEq, Repr

/-- Result of every abort path: return `False` before placing any
order. -/
def failRes : OpenResult := ⟨false, [], [], none⟩

/-- The long team produced by `split_wallets_into_teams`. -/
def longTeamOf (env : OpenEnv) (wallets : List String) : List String :=
  (env.shuffle wallets).take env.longSize

/-- The short team produced by `split_wallets_into_teams`. -/
def shortTeamOf (env : OpenEnv) (wallets : List String) : List String :=
  (env.shuffle wallets).drop env.longSize

/-- The total quantity computed by `calculate_position_size` (price fetch
index 0). -/
def totalOf (env : OpenEnv) : ℚ :=
  calculate_position_size env.baseSize env.varianceDraw env.d (env.prices 0)

/-- Long-team allocations (price fetch index 2 when consulted). -/
def longQOf (env : OpenEnv) (wallets : List String) : List ℚ :=
  distribute_quantity_in_teams (totalOf env) (longTeamOf env wallets).length
    env.minOrderUsdt env.minStep env.d (env.prices 2) env.propsLong

/-- Index of the price fetch inside the short-team distribution call: the
long-team distribution consumed a fetch only when its team size was not
1. -/
def shortPriceIdx (env : OpenEnv) (wallets : List String) : ℕ :=
  2 + (if (longTeamOf env wallets).length = 1 then 0 else 1)

/-- Short-team allocations. -/
def shortQOf (env : OpenEnv) (wallets : List String) : List ℚ :=
  distribute_quantity_in_teams (totalOf env) (shortTeamOf env wallets).length
    env.minOrderUsdt env.minStep env.d (env.prices (shortPriceIdx env wallets)) env.propsShort

/-- Index of the price-for-recording fetch (line 532 of the source). -/
def finalPriceIdx (env : OpenEnv) (wallets : List String) : ℕ :=
  shortPriceIdx env wallets + (if (shortTeamOf env wallets).length = 1 then 0 else 1)

/-- The order-placement part of `open_team_hedge_position` (its lines
from "Open LONG positions" on): the LONG phase, then the SHORT phase if
the LONG phase did not fail, then either the rollback of every entry of
`symbol_positions` (returning `False`) or the recording of the position
(returning `True`). -/
def runOpenPhases (env : OpenEnv) (wallets : List String) : OpenResult :=
  let lr := runPhase env.orderOk "BUY" "LONG"
    ((longTeamOf env wallets).zip (longQOf env wallets))
  if lr.2.2 then
    ⟨false, lr.2.1, lr.1.map closeOf, none⟩
  else
    let sr := runPhase env.orderOk "SELL" "SHORT"
      ((shortTeamOf env wallets).zip (shortQOf env wallets))
    if sr.2.2 then
      ⟨false, lr.2.1 ++ sr.2.1, (lr.1 ++ sr.1).map closeOf, none⟩
    else
      ⟨true, lr.2.1 ++ sr.2.1, [], some (lr.1 ++ sr.1)⟩

/-- Embedding of `open_team_hedge_position` (the wallet availability
check, sizing, eligibility checks, team split, per-team distribution, the
two open phases, and the rollback of every entry of `symbol_positions` on
failure). -/
def open_team_hedge_position (env : OpenEnv) (wallets : List String) : OpenResult :=
  if wallets.length < 2 then failRes
  else
    let total := totalOf env
    if total = 0 then failRes
    else
      match env.prices 1 with
      | none => failRes
      | some price =>
        if total < env.minOrderUsdt / price * 2 then failRes
        else
          match env.prices (finalPriceIdx env wallets) with
          | none => failRes
          | some _ => runOpenPhases env wallets

/-- Live orchestration state: `active_positions` (symbol to recorded
legs, insertion-ordered as a Python dict) and the keys of
`position_timers`. -/
structure TraderState where
  active : List (String × List Leg)
  timers : List String
deriving DecidableEq, Repr

/-- Embedding of `close_hedge_position`.  `closeOk` decides the success of
each close order.  Returns the new state, the returned flag and the
close calls issued.  The loop attempts every leg regardless of earlier
failures; the symbol is deleted from `active_positions` and
`position_timers` only when every close succeeded. -/
def close_hedge_position (closeOk : Leg → Bool) (s : TraderState) (symbol : String) :
    TraderState × Bool × List (String × String × ℚ) :=
  match s.active.lookup symbol with
  | none => (s, false, [])
  | some legs =>
    let attempts := legs.map closeOf
    if legs.all closeOk then
      (⟨s.active.filter fun p => !(p.1 == symbol), s.timers.filter fun t => !(t == symbol)⟩,
        true, attempts)
    else (s, false, attempts)

/-- `get_available_wallets`: wallets appearing in no active position's
legs. -/
def get_available_wallets (allWallets : List String) (s : TraderState) : List String :=
  allWallets.filter fun w => !((s.active.flatMap fun p => p.2.map Leg.wallet).contains w)

/-- The state update of one `execute_trading_round` call: run
`open_team_hedge_position` on the idle wallets; on success record the
legs under the symbol and start its timer. -/
def applyOpen (allWallets : List String) (s : TraderState) (symbol : String)
    (env : OpenEnv) : TraderState :=
  match (open_team_hedge_position env (get_available_wallets allWallets s)).recorded with
  | some legs => ⟨s.active ++ [(symbol, legs)], s.timers ++ [symbol]⟩
  | none => s

/-- The state update of one `close_hedge_position` call (as invoked by
`check_positions_for_closing` and shutdown). -/
def applyClose (closeOk : Leg → Bool) (s : TraderState) (symbol : String) : TraderState :=
  (close_hedge_position closeOk s symbol).1

/-- States reachable by the trading loop: starting from no live
positions, any interleaving of round executions (`execute_trading_round`
opens a position only for a symbol not currently live - `random.choice`
over `get_available_symbols` - and only from idle wallets) and
expiry-driven closes.  `hperm` is the `random.shuffle` contract. -/
inductive Reachable (allWallets : List String) : TraderState → Prop
  | init : Reachable allWallets ⟨[], []⟩
  | openStep {s : TraderState} (symbol : String) (env : OpenEnv)
      (hs : Reachable allWallets s)
      (hsym : symbol ∉ s.active.map Prod.fst)
      (hperm : (env.shuffle (get_available_wallets allWallets s)).Perm
        (get_available_wallets allWallets s)) :
      Reachable allWallets (applyOpen allWallets s symbol env)
  | closeStep {s : TraderState} (symbol : String) (closeOk : Leg → Bool)
      (hs : Reachable allWallets s) :
      Reachable allWallets (applyClose closeOk s symbol)

/-- The wallets involved in one live position. -/
def walletsOf (p : String × List Leg) : List String := p.2.map Leg.wallet

/-- The mutual-exclusion invariant: at most one live entry per symbol and
no wallet in the legs of two live positions. -/
def LiveInvariant (s : TraderState) : Prop :=
  (s.active.map Prod.fst).Nodup ∧
  s.active.Pairwise fun p q => ∀ w, w ∈ walletsOf p → w ∉ walletsOf q

/-!
## The signed client: `_generate_signature` and `_make_request`

HMAC-SHA256 itself lives in `hashlib`/`hmac`; it is abstracted as an
opaque-to-the-model parameter `hmacHex secret message`.  Python dicts are
modelled as insertion-ordered association lists.
-/
/-- Python-dict write `params[k] = v`: replace in place when the key
exists, append otherwise. -/
def dictSet (ps : List (String × String)) (k v : String) : List (String × String) :=
  if ps.any (fun p => p.1 == k) then ps.map fun p => if p.1 == k then (k, v) else p
  else ps ++ [(k, v)]

/-- The signed query string: `key=value` pairs joined by `&` in insertion
order (the source explicitly does not sort). -/
def queryString (ps : List (String × String)) : String :=
  String.intercalate "&" (ps.map fun p => p.1 ++ "=" ++ p.2)

/-- Embedding of `_generate_signature`: delete any existing `signature`
entry, then HMAC-SHA256 (as `hmacHex secret message`) over the unsorted
query string.  Returns the mutated parameter dict and the hex digest. -/
def generate_signature (hmacHex : String → String → String) (secret : String)
    (ps : List (String × String)) : List (String × String) × String :=
  let ps1 := ps.filter fun p => !(p.1 == "signature")
  (ps1, hmacHex secret (queryString ps1))

/-- The signed branch of `_make_request`: inject `timestamp` and
`recvWindow = 5000`, sign, attach the signature as a query parameter and
the API key as the `X-MBX-APIKEY` header.  Returns the final query
parameters and the headers. -/
def make_request_signed (hmacHex : String → String → String) (apiKey secret : String)
    (params : List (String × String)) (timestamp : String) :
    List (String × String) × List (String × String) :=
  let p1 := dictSet (dictSet params "timestamp" timestamp) "recvWindow" "5000"
  let r := generate_signature hmacHex secret p1
  (dictSet r.1 "signature" r.2, [("X-MBX-APIKEY", apiKey)])

/-- The first order failure is at 0-based position `k` of the zipped
pair list: all earlier orders succeed and the order at `k` fails. -/
def FailsAt (orderOk : String → String → ℚ → Bool) (side : String)
    (pairs : List (String × ℚ)) (k : ℕ) : Prop :=
  k < pairs.length ∧ (∀ p ∈ pairs.take k, orderOk p.1 side p.2 = true) ∧
  ∀ p ∈ (pairs.drop k).take 1, orderOk p.1 side p.2 = false

/-- All pre-order guards of `open_team_hedge_position` pass: at least two
available wallets, a nonzero computed total, an available pre-open price
under which the total covers two minimum orders, and an available
price-for-recording fetch. -/
def GuardsPass (env : OpenEnv) (wallets : List String) : Prop :=
  2 ≤ wallets.length ∧ totalOf env ≠ 0 ∧
  (∃ price, env.prices 1 = some price ∧
    ¬ totalOf env < env.minOrderUsdt / price * 2) ∧
  ∃ p2, env.prices (finalPriceIdx env wallets) = some p2

/-- Concrete open environment exercising a LONG-phase failure on the
second long-team member: constant price 10, base size 100 USDT, no
variance draw, BTC-style precision, identity shuffle, drawn long-team
size 2, the BUY order of wallet "b" failing. -/
def envLongFail : OpenEnv where
  prices := fun _ => some 10
  orderOk := fun w _ _ => !(w == "b")
  baseSize := 100
  varianceDraw := 0
  d := 3
  minOrderUsdt := 5
  minStep := 1/1000
  shuffle := fun l => l
  longSize := 2
  propsLong := fun _ => 1/2
  propsShort := fun _ => 1/2

/-- Concrete open environment exercising a SHORT-phase failure: long team
["a"], short team ["b", "c"], the SELL order of wallet "c" failing. -/
def envShortFail : OpenEnv :=
  { envLongFail with orderOk := fun w _ _ => !(w == "c"), longSize := 1 }

/-- The C10 property of one open-sequence outcome: order attempts of each
side cover (a prefix of) the first `len(allocations)` members of that
side's team in team order, and the recorded legs of a success are exactly
those members. -/
def AllocSpec (env : OpenEnv) (wallets : List String) (r : OpenResult) : Prop :=
  ((r.openAttempts.filter fun a => a.2.1 == "BUY").map Prod.fst) <+:
    (longTeamOf env wallets).take (longQOf env wallets).length ∧
  ((r.openAttempts.filter fun a => a.2.1 == "SELL").map Prod.fst) <+:
    (shortTeamOf env wallets).take (shortQOf env wallets).length ∧
  ∀ legs, r.recorded = some legs →
    legs.map Leg.wallet =
      (longTeamOf env wallets).take (longQOf env wallets).length
        ++ (shortTeamOf env wallets).take (shortQOf env wallets).length

/-- Concrete open environment in which the price fetch consumed by the
long-team distribution (index 2) fails while every other fetch succeeds:
constant price 10 otherwise, every order succeeding, long team of size 2. -/
def envDistFallback : OpenEnv :=
  { envLongFail with
      prices := fun n => if n = 2 then none else some 10
      orderOk := fun _ _ _ => true }

/-- Concrete open environment whose every price fetch fails. -/
def envAllPriceFail : OpenEnv := { envLongFail with prices := fun _ => none }

/-!
## Derived allocator quantities (used to state the sum invariant)
-/
/-- The rounded allocations before the last-entry adjustment. -/
def roundedQuantities (total minQ : ℚ) (n : ℕ) (props : ℕ → ℚ) (d : ℕ) : List ℚ :=
  (rawQuantities total minQ n props).map fun q => pyRound q d

/-- The forced last entry `round(total - sum(other rounded entries), d)`. -/
def forcedLast (total minQ : ℚ) (n : ℕ) (props : ℕ → ℚ) (d : ℕ) : ℚ :=
  pyRound (total - (roundedQuantities total minQ n props d).dropLast.sum) d

theorem roundHalfEven_intCast (k : ℤ) : roundHalfEven (k : ℚ) = k := by
  simp [roundHalfEven]

theorem abs_roundHalfEven_sub (q : ℚ) : |(roundHalfEven q : ℚ) - q| ≤ 1/2 := by
  have h1 : (⌊q⌋ : ℚ) ≤ q := Int.floor_le q
  have h2 : q < ⌊q⌋ + 1 := Int.lt_floor_add_one q
  unfold roundHalfEven
  split_ifs <;> rw [abs_le] <;> constructor <;> push_cast <;> linarith

theorem roundHalfEven_mono {a b : ℚ} (h : a ≤ b) :
    roundHalfEven a ≤ roundHalfEven b := by
  have hfl : ⌊a⌋ ≤ ⌊b⌋ := Int.floor_le_floor h
  unfold roundHalfEven
  rcases lt_or_eq_of_le hfl with hlt | heq
  · split_ifs <;> omega
  · have hcast : ((⌊a⌋ : ℤ) : ℚ) = ((⌊b⌋ : ℤ) : ℚ) := by exact_mod_cast heq
    split_ifs <;> first
      | omega
      | (exfalso; linarith)

theorem pyRound_intMul_div (k : ℤ) (d : ℕ) : pyRound ((k : ℚ) / 10 ^ d) d = (k : ℚ) / 10 ^ d := by
  have h10 : ((10 : ℚ) ^ d) ≠ 0 := by positivity
  unfold pyRound
  rw [div_mul_cancel₀ _ h10, roundHalfEven_intCast]

theorem pyRound_idem (q : ℚ) (d : ℕ) : pyRound (pyRound q d) d = pyRound q d := by
  unfold pyRound
  exact pyRound_intMul_div _ d

theorem abs_pyRound_sub (q : ℚ) (d : ℕ) : |pyRound q d - q| ≤ 1 / (2 * 10 ^ d) := by
  have h10 : (0 : ℚ) < 10 ^ d := by positivity
  have h := abs_roundHalfEven_sub (q * 10 ^ d)
  unfold pyRound
  have heq : (roundHalfEven (q * 10 ^ d) : ℚ) / 10 ^ d - q
      = ((roundHalfEven (q * 10 ^ d) : ℚ) - q * 10 ^ d) / 10 ^ d := by
    field_simp
    ring
  rw [heq, abs_div, abs_of_pos h10, div_le_div_iff₀ h10 (by positivity)]
  calc |(roundHalfEven (q * 10 ^ d) : ℚ) - q * 10 ^ d| * (2 * 10 ^ d)
      ≤ (1/2) * (2 * 10 ^ d) := by
        apply mul_le_mul_of_nonneg_right h (by positivity)
    _ = 1 * 10 ^ d := by ring

theorem pyRound_mono {a b : ℚ} (d : ℕ) (h : a ≤ b) : pyRound a d ≤ pyRound b d := by
  have h10 : (0 : ℚ) < 10 ^ d := by positivity
  have hm : roundHalfEven (a * 10 ^ d) ≤ roundHalfEven (b * 10 ^ d) :=
    roundHalfEven_mono (by nlinarith)
  unfold pyRound
  gcongr

theorem pyTrunc_of_nonneg {q : ℚ} (h : 0 ≤ q) : pyTrunc q = ⌊q⌋ := by
  simp [pyTrunc, h]

/-!
## Basic lemmas about the open phases
-/
/-- A phase in which every order succeeds opens a leg per pair, attempts
a call per pair and reports no failure. -/
theorem runPhase_ok (orderOk : String → String → ℚ → Bool) (side team : String)
    (pairs : List (String × ℚ)) (h : ∀ p ∈ pairs, orderOk p.1 side p.2 = true) :
    runPhase orderOk side team pairs =
      (pairs.map (mkLeg side team), pairs.map (mkAtt side), false) := by
  induction pairs with
  | nil => rfl
  | cons p rest ih =>
    have hp := h p (List.mem_cons_self _ _)
    simp only [runPhase, hp, if_true, ih fun q hq => h q (List.mem_cons_of_mem _ hq),
      List.map_cons]

/-- A phase whose first failure is at position `k` opens exactly the
first `k` legs, attempts exactly `k + 1` calls and reports failure. -/
theorem runPhase_fail (orderOk : String → String → ℚ → Bool) (side team : String)
    (pairs : List (String × ℚ)) (k : ℕ) (h : FailsAt orderOk side pairs k) :
    runPhase orderOk side team pairs =
      ((pairs.take k).map (mkLeg side team), (pairs.take (k + 1)).map (mkAtt side), true) := by
  induction pairs generalizing k with
  | nil => exact absurd h.1 (by simp)
  | cons p rest ih =>
    obtain ⟨hk, hok, hfail⟩ := h
    cases k with
    | zero =>
      have hp : orderOk p.1 side p.2 = false := hfail p (by simp)
      simp [runPhase, hp]
    | succ k =>
      have hp : orderOk p.1 side p.2 = true := hok p (by simp)
      have hrest : FailsAt orderOk side rest k :=
        ⟨by simpa using hk, fun q hq => hok q (by simp [hq]), by simpa using hfail⟩
      simp only [runPhase, hp, if_true, ih k hrest, List.take_succ_cons, List.map_cons]

/-- Every leg and every attempt of a phase comes from a prefix of the
zipped pair list. -/
theorem runPhase_shape (orderOk : String → String → ℚ → Bool) (side team : String)
    (pairs : List (String × ℚ)) :
    ∃ j ja, (runPhase orderOk side team pairs).1 = (pairs.take j).map (mkLeg side team) ∧
      (runPhase orderOk side team pairs).2.1 = (pairs.take ja).map (mkAtt side) := by
  induction pairs with
  | nil => exact ⟨0, 0, rfl, rfl⟩
  | cons p rest ih =>
    obtain ⟨j, ja, h1, h2⟩ := ih
    by_cases hp : orderOk p.1 side p.2 = true
    · exact ⟨j + 1, ja + 1, by simp [runPhase, hp, h1], by simp [runPhase, hp, h2]⟩
    · rw [Bool.not_eq_true] at hp
      exact ⟨0, 1, by simp [runPhase, hp], by simp [runPhase, hp]⟩

/-- When every guard passes, `open_team_hedge_position` is exactly its
order-placement part. -/
theorem open_team_eq_phases (env : OpenEnv) (wallets : List String)
    (hg : GuardsPass env wallets) :
    open_team_hedge_position env wallets = runOpenPhases env wallets := by
  obtain ⟨hw, htot, ⟨price, hp1, hcheap⟩, p2, hp2⟩ := hg
  unfold open_team_hedge_position
  rw [if_neg (Nat.not_lt.mpr hw)]
  simp only [hp1, hp2]
  rw [if_neg htot, if_neg hcheap]

/-!
## C5: team split coverage
-/
/-- C5: for any duplicate-free wallet list of size at least 2, given the
`random.shuffle` contract (the shuffled copy is a permutation of the
input) and the `random.randint(1, N-1)` contract on the drawn long-team
size, `split_wallets_into_teams` returns two disjoint non-empty teams
whose concatenation is a permutation of the input (so their union is the
input set), with the long team of exactly the drawn size.  The result is
a function of the input list and the drawn random values alone, so
determinism given a fixed random source holds by construction. -/
theorem split_teams_cover (wallets : List String) (shuffle : List String → List String)
    (k : ℕ) (hnd : wallets.Nodup) (hlen : 2 ≤ wallets.length)
    (hperm : (shuffle wallets).Perm wallets) (hk1 : 1 ≤ k) (hk2 : k ≤ wallets.length - 1) :
    ∃ lt st, split_wallets_into_teams shuffle k wallets = some (lt, st) ∧
      lt ≠ [] ∧ st ≠ [] ∧ lt.Disjoint st ∧ (lt ++ st).Perm wallets ∧ lt.length = k := by
  have hsl : (shuffle wallets).length = wallets.length := hperm.length_eq
  have hklt : k < wallets.length := by omega
  refine ⟨(shuffle wallets).take k, (shuffle wallets).drop k, ?_, ?_, ?_, ?_, ?_, ?_⟩
  · simp [split_wallets_into_teams, Nat.not_lt.mpr hlen]
  · have : ((shuffle wallets).take k).length = k := by
      rw [List.length_take]; omega
    intro hcon
    rw [hcon] at this
    simp at this
    omega
  · have : ((shuffle wallets).drop k).length = wallets.length - k := by
      rw [List.length_drop]; omega
    intro hcon
    rw [hcon] at this
    simp at this
    omega
  · exact List.disjoint_take_drop (hperm.nodup_iff.mpr hnd) le_rfl
  · rw [List.take_append_drop]
    exact hperm
  · rw [List.length_take]; omega

/-- Witness for C5 at a concrete wallet list (identity shuffle, drawn
long-team size 1). -/
theorem split_teams_cover_witness :
    ∃ lt st, split_wallets_into_teams (fun l => l) 1 ["a", "b", "c"] = some (lt, st) ∧
      lt ≠ [] ∧ st ≠ [] ∧ lt.Disjoint st ∧ (lt ++ st).Perm ["a", "b", "c"] ∧ lt.length = 1 :=
  split_teams_cover ["a", "b", "c"] (fun l => l) 1 (by decide) (by decide)
    (List.Perm.refl _) (by decide) (by decide)

/-!
## C6: close attempts every leg; state dropped only on full success
-/
/-- C6: for a live position, `close_hedge_position` issues exactly one
opposite-side close call per recorded leg, in recorded order, regardless
of earlier failures; it removes the symbol from `active_positions` and
`position_timers` exactly when every close succeeded, and leaves both
untouched on any failure (so the expiry check retries the position). -/
theorem close_position_retry (closeOk : Leg → Bool) (s : TraderState)
    (symbol : String) (legs : List Leg) (hlk : s.active.lookup symbol = some legs) :
    (close_hedge_position closeOk s symbol).2.2 = legs.map closeOf ∧
    (close_hedge_position closeOk s symbol).2.1 = legs.all closeOk ∧
    (legs.all closeOk = true →
      (close_hedge_position closeOk s symbol).1 =
        ⟨s.active.filter fun p => !(p.1 == symbol), s.timers.filter fun t => !(t == symbol)⟩) ∧
    (legs.all closeOk = false → (close_hedge_position closeOk s symbol).1 = s) := by
  cases hall : legs.all closeOk <;>
    simp [close_hedge_position, hlk, hall]

/-- Witness for C6: a concrete two-leg position whose second close fails
is attempted in full and left in live state. -/
theorem close_position_retry_witness :
    (close_hedge_position (fun l => l.wallet == "wallet_a")
        ⟨[("BTCUSDT", [⟨"wallet_a", "BUY", 5, "LONG"⟩, ⟨"wallet_b", "SELL", 5, "SHORT"⟩])],
          ["BTCUSDT"]⟩ "BTCUSDT").2.2 =
      [("wallet_a", "SELL", 5), ("wallet_b", "BUY", 5)] ∧
    (close_hedge_position (fun l => l.wallet == "wallet_a")
        ⟨[("BTCUSDT", [⟨"wallet_a", "BUY", 5, "LONG"⟩, ⟨"wallet_b", "SELL", 5, "SHORT"⟩])],
          ["BTCUSDT"]⟩ "BTCUSDT").1 =
      ⟨[("BTCUSDT", [⟨"wallet_a", "BUY", 5, "LONG"⟩, ⟨"wallet_b", "SELL", 5, "SHORT"⟩])],
        ["BTCUSDT"]⟩ := by
  have h := close_position_retry (fun l => l.wallet == "wallet_a")
    ⟨[("BTCUSDT", [⟨"wallet_a", "BUY", 5, "LONG"⟩, ⟨"wallet_b", "SELL", 5, "SHORT"⟩])],
      ["BTCUSDT"]⟩ "BTCUSDT"
    [⟨"wallet_a", "BUY", 5, "LONG"⟩, ⟨"wallet_b", "SELL", 5, "SHORT"⟩] (by simp [List.lookup])
  refine ⟨?_, h.2.2.2 (by simp [closeOf, closeSide])⟩
  rw [h.1]
  simp [closeOf, closeSide]

/-!
## C9: the signed request
-/
/-- `params[k] = v` appends when the key is absent. -/
theorem dictSet_of_not_mem (ps : List (String × String)) (k v : String)
    (h : k ∉ ps.map Prod.fst) : dictSet ps k v = ps ++ [(k, v)] := by
  have hany : ps.any (fun p => p.1 == k) = false := by
    rw [List.any_eq_false]
    intro p hp
    simp only [beq_iff_eq]
    intro hcon
    exact h (hcon ▸ List.mem_map_of_mem Prod.fst hp)
  simp [dictSet, hany]

/-- C9: a signed request appends a timestamp and `recvWindow = 5000` to
the caller-supplied parameters, signs the `key=value` pairs joined by `&`
in exactly the supplied order (with any pre-existing `signature` entry
dropped, and never sorted), attaches the digest as the final `signature`
query parameter, and sends the API key in the `X-MBX-APIKEY` header. -/
theorem signed_request_shape (hmacHex : String → String → String)
    (apiKey secret : String) (params : List (String × String)) (timestamp : String)
    (hts : "timestamp" ∉ params.map Prod.fst)
    (hrw : "recvWindow" ∉ params.map Prod.fst) :
    make_request_signed hmacHex apiKey secret params timestamp =
      ((params.filter fun p => !(p.1 == "signature"))
          ++ [("timestamp", timestamp), ("recvWindow", "5000")]
          ++ [("signature", hmacHex secret (queryString
                ((params.filter fun p => !(p.1 == "signature"))
                  ++ [("timestamp", timestamp), ("recvWindow", "5000")])))],
        [("X-MBX-APIKEY", apiKey)]) := by
  have h1 : dictSet params "timestamp" timestamp = params ++ [("timestamp", timestamp)] :=
    dictSet_of_not_mem _ _ _ hts
  have h2 : dictSet (params ++ [("timestamp", timestamp)]) "recvWindow" "5000"
      = params ++ [("timestamp", timestamp)] ++ [("recvWindow", "5000")] := by
    apply dictSet_of_not_mem
    simpa using hrw
  have hfil : ((params ++ [("timestamp", timestamp)] ++ [("recvWindow", "5000")]).filter
      fun p => !(p.1 == "signature"))
      = (params.filter fun p => !(p.1 == "signature"))
        ++ [("timestamp", timestamp), ("recvWindow", "5000")] := by
    simp [List.filter_append]
  have hsig : "signature" ∉ ((params.filter fun p => !(p.1 == "signature"))
      ++ [("timestamp", timestamp), ("recvWindow", "5000")]).map Prod.fst := by
    simp only [List.map_append, List.mem_append]
    rintro (hmem | hmem)
    · obtain ⟨p, hp, hpe⟩ := List.mem_map.mp hmem
      have := List.of_mem_filter hp
      simp only [hpe, beq_self_eq_true, Bool.not_true] at this
      exact Bool.false_ne_true this
    · simp at hmem
  simp only [make_request_signed, generate_signature]
  rw [h1, h2, hfil, dictSet_of_not_mem _ _ _ hsig]

/-!
## C1 and C2: partial-failure handling of the open sequence
-/
/-- C1 amended: when a BUY order fails on the (0-based) `k`-th long-team
member, the orchestrator aborts the remaining long orders (exactly
`k + 1` BUY attempts), issues no short-phase order, records no position,
returns failure - and rolls back the `k` already-opened long legs with
one opposite-side closing order each (so no closing order exactly when
the first long order fails). -/
theorem long_phase_failure_aborts (env : OpenEnv) (wallets : List String) (k : ℕ)
    (hg : GuardsPass env wallets)
    (hfail : FailsAt env.orderOk "BUY"
      ((longTeamOf env wallets).zip (longQOf env wallets)) k) :
    open_team_hedge_position env wallets =
      ⟨false,
        ((((longTeamOf env wallets).zip (longQOf env wallets)).take (k + 1)).map (mkAtt "BUY")),
        ((((longTeamOf env wallets).zip (longQOf env wallets)).take k).map
          (mkLeg "BUY" "LONG")).map closeOf,
        none⟩ := by
  rw [open_team_eq_phases env wallets hg]
  simp only [runOpenPhases]
  rw [runPhase_fail env.orderOk "BUY" "LONG" _ k hfail]
  rfl

theorem envLongFail_total : totalOf envLongFail = 10 := by
  norm_num [totalOf, envLongFail, calculate_position_size, pyRound, roundHalfEven]

theorem envLongFail_longQ : longQOf envLongFail ["a", "b", "c"] = [5, 5] := by
  rw [longQOf, envLongFail_total]
  norm_num [longTeamOf, envLongFail, distribute_quantity_in_teams, minQuantityOf,
    effectiveTeamSize, pyTrunc, rawQuantities, adjustLast, raiseMin, pyRound,
    roundHalfEven, List.range_succ]

theorem envLongFail_guards : GuardsPass envLongFail ["a", "b", "c"] := by
  refine ⟨by norm_num, ?_, ⟨10, rfl, ?_⟩, ⟨10, rfl⟩⟩
  · rw [envLongFail_total]; norm_num
  · rw [envLongFail_total]; norm_num [envLongFail]

/-- C1 is false on the code as soon as a long leg was already opened:
with the guards passing and the BUY order of the *second* long-team
member failing, the rollback loop (`if failed:` over `symbol_positions`)
closes the first long leg - an opposite-side closing order IS issued for
a long-phase failure. -/
theorem long_phase_rollback_counterexample :
    (open_team_hedge_position envLongFail ["a", "b", "c"]).success = false ∧
    (open_team_hedge_position envLongFail ["a", "b", "c"]).closeOrders
      = [("a", "SELL", 5)] := by
  rw [open_team_eq_phases envLongFail _ envLongFail_guards]
  simp only [runOpenPhases]
  rw [envLongFail_longQ]
  have hlt : longTeamOf envLongFail ["a", "b", "c"] = ["a", "b"] := rfl
  rw [hlt]
  simp [runPhase, envLongFail, mkLeg, mkAtt, closeOf, closeSide]

/-- Witness for the amended C1 at the concrete environment: failure on
the second long-team member rolls back exactly the first long leg. -/
theorem long_phase_failure_aborts_witness :
    open_team_hedge_position envLongFail ["a", "b", "c"] =
      ⟨false,
        ((((longTeamOf envLongFail ["a", "b", "c"]).zip
            (longQOf envLongFail ["a", "b", "c"])).take 2).map (mkAtt "BUY")),
        ((((longTeamOf envLongFail ["a", "b", "c"]).zip
            (longQOf envLongFail ["a", "b", "c"])).take 1).map
          (mkLeg "BUY" "LONG")).map closeOf,
        none⟩ :=
  long_phase_failure_aborts envLongFail ["a", "b", "c"] 1 envLongFail_guards (by
    rw [envLongFail_longQ]
    have hlt : longTeamOf envLongFail ["a", "b", "c"] = ["a", "b"] := rfl
    rw [hlt]
    simp [FailsAt, envLongFail])

/-- C2: when every long order succeeds and a SELL order fails on the
(0-based) `k`-th short-team member, the orchestrator stops the short
phase at that member (exactly `k + 1` SELL attempts, zero further), and
issues exactly one opposite-side closing order for each leg opened so
far - every long leg, then the `k` opened short legs, in the order they
were opened - records no live position and returns failure. -/
theorem short_phase_failure_rollback (env : OpenEnv) (wallets : List String) (k : ℕ)
    (hg : GuardsPass env wallets)
    (hlong : ∀ p ∈ (longTeamOf env wallets).zip (longQOf env wallets),
      env.orderOk p.1 "BUY" p.2 = true)
    (hfail : FailsAt env.orderOk "SELL"
      ((shortTeamOf env wallets).zip (shortQOf env wallets)) k) :
    open_team_hedge_position env wallets =
      ⟨false,
        ((longTeamOf env wallets).zip (longQOf env wallets)).map (mkAtt "BUY")
          ++ (((shortTeamOf env wallets).zip (shortQOf env wallets)).take (k + 1)).map
              (mkAtt "SELL"),
        (((longTeamOf env wallets).zip (longQOf env wallets)).map (mkLeg "BUY" "LONG")
          ++ (((shortTeamOf env wallets).zip (shortQOf env wallets)).take k).map
              (mkLeg "SELL" "SHORT")).map closeOf,
        none⟩ := by
  rw [open_team_eq_phases env wallets hg]
  simp only [runOpenPhases]
  rw [runPhase_ok env.orderOk "BUY" "LONG" _ hlong,
    runPhase_fail env.orderOk "SELL" "SHORT" _ k hfail]
  rfl

theorem envShortFail_total : totalOf envShortFail = 10 := by
  norm_num [totalOf, envShortFail, envLongFail, calculate_position_size, pyRound,
    roundHalfEven]

theorem envShortFail_longQ : longQOf envShortFail ["a", "b", "c"] = [10] := by
  rw [longQOf, envShortFail_total]
  norm_num [longTeamOf, envShortFail, envLongFail, distribute_quantity_in_teams]

theorem envShortFail_shortQ : shortQOf envShortFail ["a", "b", "c"] = [5, 5] := by
  rw [shortQOf, envShortFail_total]
  norm_num [shortTeamOf, shortPriceIdx, longTeamOf, envShortFail, envLongFail,
    distribute_quantity_in_teams, minQuantityOf, effectiveTeamSize, pyTrunc,
    rawQuantities, adjustLast, raiseMin, pyRound, roundHalfEven, List.range_succ]

theorem envShortFail_guards : GuardsPass envShortFail ["a", "b", "c"] := by
  refine ⟨by norm_num, ?_, ⟨10, rfl, ?_⟩, ⟨10, rfl⟩⟩
  · rw [envShortFail_total]; norm_num
  · rw [envShortFail_total]; norm_num [envShortFail, envLongFail]

/-- Witness for C2 at the concrete environment: the SELL failure on the
second short-team member rolls back the long leg and the first short
leg, in opening order, with no further short attempt. -/
theorem short_phase_failure_rollback_witness :
    open_team_hedge_position envShortFail ["a", "b", "c"] =
      ⟨false,
        ((longTeamOf envShortFail ["a", "b", "c"]).zip
            (longQOf envShortFail ["a", "b", "c"])).map (mkAtt "BUY")
          ++ (((shortTeamOf envShortFail ["a", "b", "c"]).zip
              (shortQOf envShortFail ["a", "b", "c"])).take 2).map (mkAtt "SELL"),
        (((longTeamOf envShortFail ["a", "b", "c"]).zip
            (longQOf envShortFail ["a", "b", "c"])).map (mkLeg "BUY" "LONG")
          ++ (((shortTeamOf envShortFail ["a", "b", "c"]).zip
              (shortQOf envShortFail ["a", "b", "c"])).take 1).map
              (mkLeg "SELL" "SHORT")).map closeOf,
        none⟩ :=
  short_phase_failure_rollback envShortFail ["a", "b", "c"] 1 envShortFail_guards
    (by
      rw [envShortFail_longQ]
      have hlt : longTeamOf envShortFail ["a", "b", "c"] = ["a"] := rfl
      rw [hlt]
      simp [envShortFail, envLongFail])
    (by
      rw [envShortFail_shortQ]
      have hst : shortTeamOf envShortFail ["a", "b", "c"] = ["b", "c"] := rfl
      rw [hst]
      simp [FailsAt, envShortFail, envLongFail])

/-!
## C7 and C10: price-fetch failure paths and short allocation lists
-/
/-- The wallets of a zipped pair list are the first `len(quantities)`
team members, in team order. -/
theorem map_fst_zip_take (l : List String) (q : List ℚ) :
    (l.zip q).map Prod.fst = l.take q.length := by
  induction l generalizing q with
  | nil => simp
  | cons a l ih =>
    cases q with
    | nil => simp
    | cons b q => simp [ih]

theorem map_fst_mkAtt (side : String) (pairs : List (String × ℚ)) :
    ((pairs.map (mkAtt side)).map Prod.fst) = pairs.map Prod.fst := by
  simp [mkAtt, List.map_map, Function.comp]

theorem map_wallet_mkLeg (side team : String) (pairs : List (String × ℚ)) :
    ((pairs.map (mkLeg side team)).map Leg.wallet) = pairs.map Prod.fst := by
  simp [mkLeg, List.map_map, Function.comp]

/-- Attempts of one phase carry that phase's side, so filtering by side
keeps all of them or none of them. -/
theorem filter_map_mkAtt (s t : String) (pairs : List (String × ℚ)) :
    ((pairs.map (mkAtt s)).filter fun a => a.2.1 == t) =
      if s = t then pairs.map (mkAtt s) else [] := by
  induction pairs with
  | nil => by_cases h : s = t <;> simp [h]
  | cons p rest ih =>
    by_cases h : s = t
    · simp_all [mkAtt]
    · simp_all [mkAtt]
      exact ih

/-- A phase that did not fail opened every zipped pair. -/
theorem runPhase_not_failed (orderOk : String → String → ℚ → Bool) (side team : String)
    (pairs : List (String × ℚ))
    (h : (runPhase orderOk side team pairs).2.2 = false) :
    runPhase orderOk side team pairs =
      (pairs.map (mkLeg side team), pairs.map (mkAtt side), false) := by
  induction pairs with
  | nil => rfl
  | cons p rest ih =>
    by_cases hp : orderOk p.1 side p.2 = true
    · have h2 : (runPhase orderOk side team rest).2.2 = false := by
        simpa [runPhase, hp] using h
      simp [runPhase, hp, ih h2]
    · rw [Bool.not_eq_true] at hp
      simp [runPhase, hp] at h

theorem runPhase_attempts_prefix (orderOk : String → String → ℚ → Bool) (side team : String)
    (l : List String) (q : List ℚ) :
    (((runPhase orderOk side team (l.zip q)).2.1.map Prod.fst)) <+: l.take q.length := by
  obtain ⟨j, ja, h1, h2⟩ := runPhase_shape orderOk side team (l.zip q)
  rw [h2, map_fst_mkAtt, List.map_take, map_fst_zip_take]
  exact List.take_prefix _ _

/-- `open_team_hedge_position` either aborts before placing any order or
runs the two open phases. -/
theorem open_team_cases (env : OpenEnv) (wallets : List String) :
    open_team_hedge_position env wallets = failRes ∨
    open_team_hedge_position env wallets = runOpenPhases env wallets := by
  simp only [open_team_hedge_position]
  by_cases h1 : wallets.length < 2
  · simp [h1]
  · simp only [h1, if_false]
    by_cases h2 : totalOf env = 0
    · simp [h2]
    · simp only [h2, if_false]
      cases hp : env.prices 1 with
      | none => simp
      | some price =>
        by_cases h3 : totalOf env < env.minOrderUsdt / price * 2
        · simp [h3]
        · simp only [h3, if_false]
          cases hf : env.prices (finalPriceIdx env wallets) with
          | none => simp
          | some p2 => simp

theorem runOpenPhases_longFail (env : OpenEnv) (wallets : List String)
    (h : (runPhase env.orderOk "BUY" "LONG"
      ((longTeamOf env wallets).zip (longQOf env wallets))).2.2 = true) :
    runOpenPhases env wallets =
      ⟨false,
        (runPhase env.orderOk "BUY" "LONG"
          ((longTeamOf env wallets).zip (longQOf env wallets))).2.1,
        (runPhase env.orderOk "BUY" "LONG"
          ((longTeamOf env wallets).zip (longQOf env wallets))).1.map closeOf,
        none⟩ := by
  simp only [runOpenPhases]
  rw [if_pos h]

theorem runOpenPhases_shortFail (env : OpenEnv) (wallets : List String)
    (hl : (runPhase env.orderOk "BUY" "LONG"
      ((longTeamOf env wallets).zip (longQOf env wallets))).2.2 = false)
    (hs : (runPhase env.orderOk "SELL" "SHORT"
      ((shortTeamOf env wallets).zip (shortQOf env wallets))).2.2 = true) :
    runOpenPhases env wallets =
      ⟨false,
        (runPhase env.orderOk "BUY" "LONG"
            ((longTeamOf env wallets).zip (longQOf env wallets))).2.1
          ++ (runPhase env.orderOk "SELL" "SHORT"
            ((shortTeamOf env wallets).zip (shortQOf env wallets))).2.1,
        ((runPhase env.orderOk "BUY" "LONG"
            ((longTeamOf env wallets).zip (longQOf env wallets))).1
          ++ (runPhase env.orderOk "SELL" "SHORT"
            ((shortTeamOf env wallets).zip (shortQOf env wallets))).1).map closeOf,
        none⟩ := by
  simp only [runOpenPhases]
  rw [if_neg (by rw [hl]; exact Bool.false_ne_true), if_pos hs]

theorem runOpenPhases_success (env : OpenEnv) (wallets : List String)
    (hl : (runPhase env.orderOk "BUY" "LONG"
      ((longTeamOf env wallets).zip (longQOf env wallets))).2.2 = false)
    (hs : (runPhase env.orderOk "SELL" "SHORT"
      ((shortTeamOf env wallets).zip (shortQOf env wallets))).2.2 = false) :
    runOpenPhases env wallets =
      ⟨true,
        (runPhase env.orderOk "BUY" "LONG"
            ((longTeamOf env wallets).zip (longQOf env wallets))).2.1
          ++ (runPhase env.orderOk "SELL" "SHORT"
            ((shortTeamOf env wallets).zip (shortQOf env wallets))).2.1,
        [],
        some ((runPhase env.orderOk "BUY" "LONG"
            ((longTeamOf env wallets).zip (longQOf env wallets))).1
          ++ (runPhase env.orderOk "SELL" "SHORT"
            ((shortTeamOf env wallets).zip (shortQOf env wallets))).1)⟩ := by
  simp only [runOpenPhases]
  rw [if_neg (by rw [hl]; exact Bool.false_ne_true),
    if_neg (by rw [hs]; exact Bool.false_ne_true)]

theorem runOpenPhases_alloc (env : OpenEnv) (wallets : List String) :
    AllocSpec env wallets (runOpenPhases env wallets) := by
  obtain ⟨jl, jla, hl1, hl2⟩ := runPhase_shape env.orderOk "BUY" "LONG"
    ((longTeamOf env wallets).zip (longQOf env wallets))
  obtain ⟨js, jsa, hs1, hs2⟩ := runPhase_shape env.orderOk "SELL" "SHORT"
    ((shortTeamOf env wallets).zip (shortQOf env wallets))
  have hbuy := runPhase_attempts_prefix env.orderOk "BUY" "LONG"
    (longTeamOf env wallets) (longQOf env wallets)
  have hsell := runPhase_attempts_prefix env.orderOk "SELL" "SHORT"
    (shortTeamOf env wallets) (shortQOf env wallets)
  cases hlf : (runPhase env.orderOk "BUY" "LONG"
      ((longTeamOf env wallets).zip (longQOf env wallets))).2.2 with
  | true =>
    rw [runOpenPhases_longFail env wallets hlf]
    refine ⟨?_, ?_, ?_⟩ <;> dsimp only
    · rw [hl2, filter_map_mkAtt, if_pos rfl, ← hl2]
      exact hbuy
    · rw [hl2, filter_map_mkAtt, if_neg (by decide)]
      simp
    · simp
  | false =>
    cases hsf : (runPhase env.orderOk "SELL" "SHORT"
        ((shortTeamOf env wallets).zip (shortQOf env wallets))).2.2 with
    | true =>
      rw [runOpenPhases_shortFail env wallets hlf hsf]
      refine ⟨?_, ?_, ?_⟩ <;> dsimp only
      · rw [List.filter_append, hl2, hs2, filter_map_mkAtt, filter_map_mkAtt,
          if_pos rfl, if_neg (by decide), List.append_nil, ← hl2]
        exact hbuy
      · rw [List.filter_append, hl2, hs2, filter_map_mkAtt, filter_map_mkAtt,
          if_neg (by decide), if_pos rfl, List.nil_append, ← hs2]
        exact hsell
      · simp
    | false =>
      have hlegs := runPhase_not_failed env.orderOk "BUY" "LONG" _ hlf
      have hslegs := runPhase_not_failed env.orderOk "SELL" "SHORT" _ hsf
      rw [runOpenPhases_success env wallets hlf hsf]
      refine ⟨?_, ?_, ?_⟩ <;> dsimp only
      · rw [List.filter_append, hl2, hs2, filter_map_mkAtt, filter_map_mkAtt,
          if_pos rfl, if_neg (by decide), List.append_nil, ← hl2]
        exact hbuy
      · rw [List.filter_append, hl2, hs2, filter_map_mkAtt, filter_map_mkAtt,
          if_neg (by decide), if_pos rfl, List.nil_append, ← hs2]
        exact hsell
      · intro legs hrec
        rw [Option.some_inj] at hrec
        subst hrec
        rw [List.map_append, hlegs, hslegs]
        dsimp only
        rw [map_wallet_mkLeg, map_wallet_mkLeg, map_fst_zip_take, map_fst_zip_take]

theorem allocation_truncates_team (env : OpenEnv) (wallets : List String) :
    AllocSpec env wallets (open_team_hedge_position env wallets) := by
  rcases open_team_cases env wallets with h | h <;> rw [h]
  · refine ⟨by simp [failRes], by simp [failRes], by simp [failRes]⟩
  · exact runOpenPhases_alloc env wallets

/-- C7 amended: a failed price fetch in quantity sizing (fetch 0), in the
pre-open eligibility check (fetch 1) or in the price-for-recording fetch
aborts the round attempt - `open_team_hedge_position` returns failure
with no order placed, no rollback issued and no position recorded; but a
failed fetch inside a per-team distribution call does *not* abort: that
team's allocation falls back to the single allocation `[total]` and the
round proceeds. -/
theorem price_unavailable_aborts (env : OpenEnv) (wallets : List String) :
    ((env.prices 0 = none ∨ env.prices 1 = none ∨
        env.prices (finalPriceIdx env wallets) = none) →
      open_team_hedge_position env wallets = failRes) ∧
    ∀ (total : ℚ) (teamSize : ℕ) (minOrderUsdt minStep : ℚ) (d : ℕ) (props : ℕ → ℚ),
      teamSize ≠ 1 →
      distribute_quantity_in_teams total teamSize minOrderUsdt minStep d none props
        = [total] := by
  constructor
  · rintro (h | h | h)
    · have htot : totalOf env = 0 := by
        simp [totalOf, calculate_position_size, h]
      simp only [open_team_hedge_position, htot]
      split_ifs <;> rfl
    · simp only [open_team_hedge_position, h]
      split_ifs <;> rfl
    · simp only [open_team_hedge_position, h]
      by_cases h1 : wallets.length < 2
      · rw [if_pos h1]
      · rw [if_neg h1]
        by_cases h2 : totalOf env = 0
        · rw [if_pos h2]
        · rw [if_neg h2]
          cases hp : env.prices 1 with
          | none => rfl
          | some price =>
            dsimp only
            split_ifs <;> rfl
  · intro total teamSize minOrderUsdt minStep d props hts
    simp [distribute_quantity_in_teams, hts]

theorem envDistFallback_total : totalOf envDistFallback = 10 := by
  norm_num [totalOf, envDistFallback, envLongFail, calculate_position_size, pyRound,
    roundHalfEven]

theorem envDistFallback_longQ : longQOf envDistFallback ["a", "b", "c"] = [10] := by
  rw [longQOf, envDistFallback_total]
  norm_num [longTeamOf, envDistFallback, envLongFail, distribute_quantity_in_teams]

theorem envDistFallback_shortQ : shortQOf envDistFallback ["a", "b", "c"] = [10] := by
  rw [shortQOf, envDistFallback_total]
  norm_num [shortTeamOf, shortPriceIdx, longTeamOf, envDistFallback, envLongFail,
    distribute_quantity_in_teams]

theorem envDistFallback_guards : GuardsPass envDistFallback ["a", "b", "c"] := by
  refine ⟨by norm_num, ?_, ⟨10, rfl, ?_⟩, ⟨10, ?_⟩⟩
  · rw [envDistFallback_total]; norm_num
  · rw [envDistFallback_total]; norm_num [envDistFallback, envLongFail]
  · norm_num [finalPriceIdx, shortPriceIdx, shortTeamOf, longTeamOf, envDistFallback,
      envLongFail]

/-- Full evaluation of the fallback run: the round succeeds and places
one order per team (only the first long-team member receives an order,
the single fallback allocation `[10]` being shorter than the team). -/
theorem envDistFallback_run :
    open_team_hedge_position envDistFallback ["a", "b", "c"] =
      ⟨true, [("a", "BUY", 10), ("c", "SELL", 10)], [],
        some [⟨"a", "BUY", 10, "LONG"⟩, ⟨"c", "SELL", 10, "SHORT"⟩]⟩ := by
  rw [open_team_eq_phases envDistFallback _ envDistFallback_guards]
  simp only [runOpenPhases]
  rw [envDistFallback_longQ, envDistFallback_shortQ]
  have hlt : longTeamOf envDistFallback ["a", "b", "c"] = ["a", "b"] := rfl
  have hst : shortTeamOf envDistFallback ["a", "b", "c"] = ["c"] := rfl
  rw [hlt, hst]
  simp [runPhase, envDistFallback, envLongFail, mkLeg, mkAtt]

/-- C7 is false on the code: a run in which the price fetch consumed
inside the long-team distribution yields no value is not aborted - orders
are still placed and the round succeeds, the distribution falling back to
the single allocation. -/
theorem price_unavailable_counterexample :
    envDistFallback.prices 2 = none ∧
    (open_team_hedge_position envDistFallback ["a", "b", "c"]).success = true ∧
    (open_team_hedge_position envDistFallback ["a", "b", "c"]).openAttempts
      = [("a", "BUY", 10), ("c", "SELL", 10)] := by
  refine ⟨rfl, ?_, ?_⟩ <;> rw [envDistFallback_run]

/-- Witness for the amended C7: with the sizing fetch failing the round
aborts with no orders. -/
theorem price_unavailable_aborts_witness :
    open_team_hedge_position envAllPriceFail ["a", "b", "c"] = failRes :=
  (price_unavailable_aborts envAllPriceFail ["a", "b", "c"]).1 (Or.inl rfl)

/-- Witness for C10 at the fallback environment: the long team has two
members but the allocation list only one entry; the recorded legs cover
exactly the first member of each team. -/
theorem allocation_truncates_team_witness :
    (open_team_hedge_position envDistFallback ["a", "b", "c"]).recorded
        = some [⟨"a", "BUY", 10, "LONG"⟩, ⟨"c", "SELL", 10, "SHORT"⟩] ∧
    ([(⟨"a", "BUY", 10, "LONG"⟩ : Leg), ⟨"c", "SELL", 10, "SHORT"⟩].map Leg.wallet)
        = (longTeamOf envDistFallback ["a", "b", "c"]).take
            (longQOf envDistFallback ["a", "b", "c"]).length
          ++ (shortTeamOf envDistFallback ["a", "b", "c"]).take
            (shortQOf envDistFallback ["a", "b", "c"]).length := by
  have hrec : (open_team_hedge_position envDistFallback ["a", "b", "c"]).recorded
      = some [⟨"a", "BUY", 10, "LONG"⟩, ⟨"c", "SELL", 10, "SHORT"⟩] := by
    rw [envDistFallback_run]
  exact ⟨hrec,
    (allocation_truncates_team envDistFallback ["a", "b", "c"]).2.2 _ hrec⟩

/-!
## C8: mutual exclusion of live positions
-/
/-- Every wallet recorded in a successful open run belongs to the wallet
list the run was given (the legs are zipped prefixes of the two teams,
which partition the shuffled input). -/
theorem recorded_wallets_mem (env : OpenEnv) (wallets : List String) (legs : List Leg)
    (hrec : (open_team_hedge_position env wallets).recorded = some legs) :
    ∀ l ∈ legs, l.wallet ∈ env.shuffle wallets := by
  rcases open_team_cases env wallets with h | h
  · rw [h] at hrec
    exact absurd hrec (by simp [failRes])
  · rw [h] at hrec
    cases hlf : (runPhase env.orderOk "BUY" "LONG"
        ((longTeamOf env wallets).zip (longQOf env wallets))).2.2 with
    | true =>
      rw [runOpenPhases_longFail env wallets hlf] at hrec
      exact absurd hrec (by simp)
    | false =>
      cases hsf : (runPhase env.orderOk "SELL" "SHORT"
          ((shortTeamOf env wallets).zip (shortQOf env wallets))).2.2 with
      | true =>
        rw [runOpenPhases_shortFail env wallets hlf hsf] at hrec
        exact absurd hrec (by simp)
      | false =>
        rw [runOpenPhases_success env wallets hlf hsf] at hrec
        rw [Option.some_inj] at hrec
        subst hrec
        intro l hl
        obtain ⟨jl, jla, hl1, _⟩ := runPhase_shape env.orderOk "BUY" "LONG"
          ((longTeamOf env wallets).zip (longQOf env wallets))
        obtain ⟨js, jsa, hs1, _⟩ := runPhase_shape env.orderOk "SELL" "SHORT"
          ((shortTeamOf env wallets).zip (shortQOf env wallets))
        rw [List.mem_append, hl1, hs1] at hl
        rcases hl with hl | hl
        · obtain ⟨p, hp, rfl⟩ := List.mem_map.mp hl
          have hp2 := List.take_subset _ _ hp
          have hp3 := (List.of_mem_zip hp2).1
          exact List.take_subset _ _ hp3
        · obtain ⟨p, hp, rfl⟩ := List.mem_map.mp hl
          have hp2 := List.take_subset _ _ hp
          have hp3 := (List.of_mem_zip hp2).1
          exact List.drop_subset _ _ hp3

/-- C8: in every state reachable by the trading loop, the live-position
map has at most one entry per symbol and no wallet appears in the legs of
two live positions: new positions are built only from the idle-wallet
query and recorded under a not-currently-live symbol, and closes only
remove entries. -/
theorem reachable_mutual_exclusion (allWallets : List String) (s : TraderState)
    (h : Reachable allWallets s) : LiveInvariant s := by
  induction h with
  | init => exact ⟨List.nodup_nil, List.Pairwise.nil⟩
  | @openStep s symbol env hs hsym hperm ih =>
    unfold applyOpen
    cases hrec : (open_team_hedge_position env (get_available_wallets allWallets s)).recorded with
    | none => exact ih
    | some legs =>
      obtain ⟨hnd, hpw⟩ := ih
      have hmem2 : ∀ l ∈ legs, l.wallet ∈ get_available_wallets allWallets s := fun l hl =>
        hperm.mem_iff.mp (recorded_wallets_mem env _ legs hrec l hl)
      constructor
      · rw [List.map_append, List.nodup_append]
        refine ⟨hnd, List.nodup_singleton _, ?_⟩
        intro a ha hb
        simp only [List.map_cons, List.map_nil, List.mem_singleton] at hb
        subst hb
        exact hsym ha
      · rw [List.pairwise_append]
        refine ⟨hpw, List.pairwise_singleton _ _, ?_⟩
        intro p hp q hq
        simp only [List.mem_singleton] at hq
        subst hq
        intro w hwp hwq
        simp only [walletsOf] at hwq
        obtain ⟨l, hl, hlw⟩ := List.mem_map.mp hwq
        have havail := hmem2 l hl
        rw [get_available_wallets, List.mem_filter] at havail
        have hflat : w ∈ s.active.flatMap fun r => r.2.map Leg.wallet :=
          List.mem_flatMap.mpr ⟨p, hp, hwp⟩
        rw [← hlw] at hflat
        revert hflat
        simpa using havail.2
  | closeStep symbol closeOk hs ih =>
    unfold applyClose close_hedge_position
    cases hlk : (TraderState.active _).lookup symbol with
    | none => exact ih
    | some legs =>
      dsimp only
      by_cases hall : legs.all closeOk
      · rw [if_pos hall]
        obtain ⟨hnd, hpw⟩ := ih
        exact ⟨hnd.sublist ((List.filter_sublist _).map _),
          hpw.sublist (List.filter_sublist _)⟩
      · rw [if_neg hall]
        exact ih

/-- Witness for C8: the invariant holds in the concrete state reached by
one successful round execution from the empty state. -/
theorem reachable_mutual_exclusion_witness :
    LiveInvariant (applyOpen ["a", "b", "c"] ⟨[], []⟩ "BTCUSDT" envDistFallback) :=
  reachable_mutual_exclusion ["a", "b", "c"] _
    (Reachable.openStep "BTCUSDT" envDistFallback Reachable.init (by simp)
      (List.Perm.refl _))

/-- Witness for C9 at the concrete parameter dict of `place_order`. -/
theorem signed_request_shape_witness :
    make_request_signed (fun secret msg => secret ++ "|" ++ msg) "KEY" "SECRET"
      [("symbol", "BTCUSDT"), ("side", "BUY"), ("type", "MARKET"), ("quantity", "5")]
      "1700000000000" =
      ([("symbol", "BTCUSDT"), ("side", "BUY"), ("type", "MARKET"), ("quantity", "5"),
        ("timestamp", "1700000000000"), ("recvWindow", "5000"),
        ("signature",
          "SECRET|symbol=BTCUSDT&side=BUY&type=MARKET&quantity=5&timestamp=1700000000000&recvWindow=5000")],
       [("X-MBX-APIKEY", "KEY")]) := by
  rw [signed_request_shape (fun secret msg => secret ++ "|" ++ msg) "KEY" "SECRET"
    [("symbol", "BTCUSDT"), ("side", "BUY"), ("type", "MARKET"), ("quantity", "5")]
    "1700000000000" (by simp) (by simp)]
  simp only [queryString, List.filter, List.map]
  rfl

/-!
## C3: the allocation sum invariant
-/
/-- `min_quantity` is a fixed point of the rounding. -/
theorem pyRound_minQuantityOf (minOrderUsdt price minStep : ℚ) (d : ℕ) :
    pyRound (minQuantityOf minOrderUsdt price minStep d) d
      = minQuantityOf minOrderUsdt price minStep d := by
  rw [minQuantityOf]
  exact pyRound_idem _ d

/-- Half a smallest unit is at most one unit. -/
theorem half_unit_le_unit (d : ℕ) : 1 / (2 * (10 : ℚ) ^ d) ≤ 1 / 10 ^ d := by
  have h10 : (0 : ℚ) < 10 ^ d := by positivity
  rw [div_le_div_iff₀ (by positivity) h10]
  nlinarith

/-- C3: the allocation list returned by `distribute_quantity_in_teams`
sums to the total within one unit of the symbol's decimal precision -
every entry is rounded to that precision and the last entry is recomputed
as the total minus the sum of the other rounded entries - except in the
documented raise-to-minimum edge case: when the forced last entry falls
below `minQuantity`, the validation loop raises it to `minQuantity` and
the sum exceeds the total by that difference (again up to one unit). -/
theorem distribute_sum_invariant (total minOrderUsdt minStep price : ℚ) (d teamSize : ℕ)
    (props : ℕ → ℚ) (_htot : 0 < total) (hts : 1 ≤ teamSize)
    (_hminQ : 0 < minQuantityOf minOrderUsdt price minStep d)
    (hprops : ∀ i, 0 < props i) :
    |(distribute_quantity_in_teams total teamSize minOrderUsdt minStep d
        (some price) props).sum - total| ≤ 1 / 10 ^ d ∨
    (forcedLast total (minQuantityOf minOrderUsdt price minStep d)
        (effectiveTeamSize total (minQuantityOf minOrderUsdt price minStep d) teamSize)
        props d
      < minQuantityOf minOrderUsdt price minStep d ∧
     |(distribute_quantity_in_teams total teamSize minOrderUsdt minStep d
          (some price) props).sum
        - (total + (minQuantityOf minOrderUsdt price minStep d
            - forcedLast total (minQuantityOf minOrderUsdt price minStep d)
                (effectiveTeamSize total (minQuantityOf minOrderUsdt price minStep d)
                  teamSize) props d))| ≤ 1 / 10 ^ d) := by
  simp only [forcedLast, roundedQuantities]
  have hunit := half_unit_le_unit d
  set minQ := minQuantityOf minOrderUsdt price minStep d with hminQdef
  have hidem : pyRound minQ d = minQ := pyRound_minQuantityOf minOrderUsdt price minStep d
  by_cases h1 : teamSize = 1
  · left
    simp only [distribute_quantity_in_teams, h1, if_true, if_pos rfl]
    simp only [List.sum_cons, List.sum_nil, add_zero, sub_self, abs_zero]
    positivity
  · simp only [distribute_quantity_in_teams, h1, if_false]
    set n := effectiveTeamSize total minQ teamSize with hn
    by_cases h2 : total < minQ * teamSize ∧ n ≤ 1
    · left
      rw [if_pos h2]
      simp only [List.sum_cons, List.sum_nil, add_zero, sub_self, abs_zero]
      positivity
    · rw [if_neg h2]
      have hn2 : 2 ≤ n := by
        by_cases hlt : total < minQ * teamSize
        · rcases Nat.lt_or_ge n 2 with hcon | hge
          · exact absurd ⟨hlt, by omega⟩ h2
          · exact hge
        · have : n = teamSize := by rw [hn, effectiveTeamSize, if_neg hlt]
          omega
      by_cases hrem : total - minQ * n ≤ 0
      · left
        rw [if_pos hrem]
        rw [List.map_append, List.map_replicate, List.sum_append, List.sum_replicate,
          hidem, List.map_cons, List.map_nil, List.sum_cons, List.sum_nil]
        have hcast : ((n - 1 : ℕ) : ℚ) = (n : ℚ) - 1 := by
          push_cast [Nat.cast_sub (by omega : 1 ≤ n)]
          ring
        have heq : (n - 1 : ℕ) • minQ
              + (pyRound (total - minQ * ((n : ℚ) - 1)) d + 0) - total
            = pyRound (total - minQ * ((n : ℚ) - 1)) d
              - (total - minQ * ((n : ℚ) - 1)) := by
          rw [nsmul_eq_mul, hcast]
          ring
        rw [heq]
        exact le_trans (abs_pyRound_sub _ _) hunit
      · rw [if_neg hrem]
        push_neg at hrem
        set R := (rawQuantities total minQ n props).map (fun q => pyRound q d) with hR
        have hRdl : ∀ a ∈ R.dropLast, minQ ≤ a := by
          intro a ha
          have haR : a ∈ R := (List.dropLast_sublist R).subset ha
          rw [hR] at haR
          obtain ⟨q, hq, rfl⟩ := List.mem_map.mp haR
          rw [rawQuantities] at hq
          obtain ⟨i, _, rfl⟩ := List.mem_map.mp hq
          have htp : 0 < ((List.range n).map props).sum := by
            apply List.sum_pos
            · intro x hx
              obtain ⟨j, _, rfl⟩ := List.mem_map.mp hx
              exact hprops j
            · have hne : List.range n ≠ [] := by
                intro hcon
                have := congrArg List.length hcon
                simp at this
                omega
              simpa using hne
          have hq1 : minQ ≤ minQ + (total - minQ * n)
              * (props i / ((List.range n).map props).sum) := by
            have hnn : 0 ≤ (total - minQ * n)
                * (props i / ((List.range n).map props).sum) :=
              mul_nonneg (le_of_lt hrem)
                (div_nonneg (le_of_lt (hprops i)) (le_of_lt htp))
            linarith
          have := pyRound_mono d hq1
          rwa [hidem] at this
        have hmapfix : (R.dropLast).map (fun q => if q < minQ then minQ else q)
            = R.dropLast := by
          have hfix : ∀ a ∈ R.dropLast, (if a < minQ then minQ else a) = a :=
            fun a ha => if_neg (not_lt.mpr (hRdl a ha))
          rw [List.map_congr_left hfix]
          simp
        simp only [raiseMin, adjustLast, ← hR, List.map_append, hmapfix, List.map_cons,
          List.map_nil, List.sum_append, List.sum_cons, List.sum_nil]
        set S := R.dropLast.sum with hS
        have hbound : |pyRound (total - S) d - (total - S)| ≤ 1 / 10 ^ d :=
          le_trans (abs_pyRound_sub _ _) hunit
        by_cases hcase : pyRound (total - S) d < minQ
        · right
          refine ⟨hcase, ?_⟩
          rw [if_pos hcase]
          have heq : S + (minQ + 0) - (total + (minQ - pyRound (total - S) d))
              = pyRound (total - S) d - (total - S) := by ring
          rw [heq]
          exact hbound
        · left
          rw [if_neg hcase]
          have heq : S + (pyRound (total - S) d + 0) - total
              = pyRound (total - S) d - (total - S) := by ring
          rw [heq]
          exact hbound

/-- Witness for C3 at a concrete run (total 10 over a team of 2 at price
10): the allocations `[5, 5]` sum to the total exactly. -/
theorem distribute_sum_invariant_witness :
    |(distribute_quantity_in_teams 10 2 5 (1/1000) 3 (some 10)
        (fun _ => 1/2)).sum - 10| ≤ 1 / 10 ^ 3 ∨
    (forcedLast 10 (minQuantityOf 5 10 (1/1000) 3)
        (effectiveTeamSize 10 (minQuantityOf 5 10 (1/1000) 3) 2) (fun _ => 1/2) 3
      < minQuantityOf 5 10 (1/1000) 3 ∧
     |(distribute_quantity_in_teams 10 2 5 (1/1000) 3 (some 10)
          (fun _ => 1/2)).sum
        - (10 + (minQuantityOf 5 10 (1/1000) 3
            - forcedLast 10 (minQuantityOf 5 10 (1/1000) 3)
                (effectiveTeamSize 10 (minQuantityOf 5 10 (1/1000) 3) 2)
                (fun _ => 1/2) 3))| ≤ 1 / 10 ^ 3) :=
  distribute_sum_invariant 10 5 (1/1000) 10 3 2 (fun _ => 1/2)
    (by norm_num) (by norm_num)
    (by norm_num [minQuantityOf, pyRound, roundHalfEven])
    (fun i => by norm_num)

/-!
## C4: singleton teams and the shrink step
-/
/-- C4: `distribute_quantity_in_teams` returns `[total]` for a singleton
team; otherwise, with `minQuantity = round(max(minOrderNotional / price,
minStep) + minStep, precision)`, when the total cannot cover
`minQuantity` for every member the effective team size used for the
distribution is exactly `⌊total / minQuantity⌋` (Python's `int`
truncation agrees with the floor for these positive operands), with the
single-allocation fallback `[total]` when that floor is at most 1. -/
theorem distribute_shrink (total minOrderUsdt minStep price : ℚ) (d teamSize : ℕ)
    (props : ℕ → ℚ) (htot : 0 < total)
    (hminQ : 0 < minQuantityOf minOrderUsdt price minStep d) :
    (teamSize = 1 →
      distribute_quantity_in_teams total teamSize minOrderUsdt minStep d (some price) props
        = [total]) ∧
    (teamSize ≠ 1 → total < minQuantityOf minOrderUsdt price minStep d * teamSize →
      pyTrunc (total / minQuantityOf minOrderUsdt price minStep d)
          = ⌊total / minQuantityOf minOrderUsdt price minStep d⌋ ∧
      (⌊total / minQuantityOf minOrderUsdt price minStep d⌋.toNat ≤ 1 →
        distribute_quantity_in_teams total teamSize minOrderUsdt minStep d (some price) props
          = [total]) ∧
      (2 ≤ ⌊total / minQuantityOf minOrderUsdt price minStep d⌋.toNat →
        (distribute_quantity_in_teams total teamSize minOrderUsdt minStep d
            (some price) props).length
          = ⌊total / minQuantityOf minOrderUsdt price minStep d⌋.toNat)) := by
  set minQ := minQuantityOf minOrderUsdt price minStep d with hminQdef
  refine ⟨fun h1 => by simp [distribute_quantity_in_teams, h1], fun hne hlt => ?_⟩
  have hdivnn : 0 ≤ total / minQ := le_of_lt (div_pos htot hminQ)
  have htr : pyTrunc (total / minQ) = ⌊total / minQ⌋ := pyTrunc_of_nonneg hdivnn
  have hn : effectiveTeamSize total minQ teamSize = ⌊total / minQ⌋.toNat := by
    rw [effectiveTeamSize, if_pos hlt, htr]
  refine ⟨htr, fun hle => ?_, fun h2 => ?_⟩
  · have hcond : total < minQ * teamSize ∧ effectiveTeamSize total minQ teamSize ≤ 1 :=
      ⟨hlt, by rw [hn]; exact hle⟩
    simp only [distribute_quantity_in_teams, hne, if_false]
    rw [if_pos hcond]
  · have hcond : ¬(total < minQ * teamSize ∧ effectiveTeamSize total minQ teamSize ≤ 1) := by
      rw [hn]
      omega
    simp only [distribute_quantity_in_teams, hne, if_false]
    rw [if_neg hcond]
    by_cases hrem : total - minQ * (effectiveTeamSize total minQ teamSize) ≤ 0
    · rw [if_pos hrem]
      rw [List.length_map, List.length_append, List.length_replicate]
      simp only [List.length_cons, List.length_nil, hn]
      omega
    · rw [if_neg hrem]
      simp only [raiseMin, adjustLast, List.length_map, List.length_append,
        List.length_dropLast, rawQuantities, List.length_range, List.length_cons,
        List.length_nil, hn]
      omega

/-- Witness for C4 at a concrete shrink instance: total `0.03`,
`minQuantity = 0.006`, requested team size 10 shrunk to
`⌊0.03 / 0.006⌋ = 5` allocations. -/
theorem distribute_shrink_witness :
    (distribute_quantity_in_teams (3/100) 10 5 (1/1000) 3 (some 1000)
        (fun _ => 1/2)).length = 5 := by
  have hminQ : minQuantityOf 5 1000 (1/1000) 3 = 3/500 := by
    norm_num [minQuantityOf, pyRound, roundHalfEven]
  have hfl : (⌊(3/100 : ℚ) / minQuantityOf 5 1000 (1/1000) 3⌋).toNat = 5 := by
    rw [hminQ]
    norm_num
    rfl
  have h := (distribute_shrink (3/100) 5 (1/1000) 1000 3 10 (fun _ => 1/2)
    (by norm_num) (by rw [hminQ]; norm_num)).2
    (by norm_num) (by rw [hminQ]; norm_num)
  rw [h.2.2 (by rw [hfl]; norm_num), hfl]

end AsterTrader
